import Mathlib

/-!
Verification of the multi-threaded modular pipeline (C sources) against its
natural-language specification, via a shallow embedding in Lean 4.

The embedding follows the C sources:
  * `consumer_producer.c` — the bounded string queue (Channel);
  * `plugin_common.c`     — the shared plugin layer (worker thread, init/fini);
  * `main.c`              — the driver (argument parsing, init, feed, teardown);
  * the six transform plugins (`logger`, `uppercaser`, `rotator`, `flipper`,
    `expander`, `typewriter`).

Machine integers are modelled as `Int`/`Nat` with explicit wrap-around where
overflow matters.  Pointers that may be NULL are modelled as `Option`.
Operating-system level failures (malloc, pthread) that the C code checks for
are modelled as explicit oracle parameters or as input events, so every
error branch of the source remains visible in the model.
-/

/- Definitions: the shallow embedding of the C sources. -/

/-- State of a bounded string queue (`consumer_producer_t`).  The ring
`items` holds one slot per capacity unit; a slot is `none` when the C
`char *` there is NULL.  `count`, `head`, `tail` are the C int fields
(always non-negative in the source, hence `Nat`). -/
structure consumer_producer_t where
  capacity : Nat
  items : List (Option String)
  count : Nat
  head : Nat
  tail : Nat
  deriving DecidableEq

/-- Channel construction (`consumer_producer_init`).  Rejects `capacity < 1`
with the error string of the source.  The calloc / monitor-init / lock
failure branches of the source only report allocation failures of the host;
the embedding models the successful-allocation executions, in which the ring
starts as `capacity` NULL slots and all indices are zero. -/
def consumer_producer_init (capacity : Int) : Except String consumer_producer_t :=
  if capacity < 1 then Except.error "invalid args"
  else Except.ok
    { capacity := capacity.toNat
      items := List.replicate capacity.toNat none
      count := 0
      head := 0
      tail := 0 }

/-- Committed effect of `consumer_producer_put`.  The source blocks while
`count == capacity`; a blocked producer has not changed the queue, so the
embedding returns `none` for the not-yet-committed case and otherwise
performs exactly the critical-section body: deep-copy the item into slot
`tail`, advance `tail` modulo `capacity`, increment `count`. -/
def consumer_producer_put (q : consumer_producer_t) (item : String) :
    Option consumer_producer_t :=
  if q.count = q.capacity then none
  else some
    { q with
      items := q.items.set q.tail (some item)
      tail := (q.tail + 1) % q.capacity
      count := q.count + 1 }

/-- Committed effect of `consumer_producer_get`.  The source blocks while
`count == 0`; otherwise it lifts the pointer at `head`, advances `head`
modulo `capacity` and decrements `count`.  Note that the source does NOT
clear the ring slot: the stale pointer stays in `items`, only ownership
moves to the caller.  The embedding keeps the slot unchanged accordingly. -/
def consumer_producer_get (q : consumer_producer_t) :
    Option (Option String × consumer_producer_t) :=
  if q.count = 0 then none
  else some
    ( q.items.getD q.head none
    , { q with
        head := (q.head + 1) % q.capacity
        count := q.count - 1 } )

/-- One queue operation of a single-producer / single-consumer history. -/
inductive CPOp where
  | put (s : String)
  | get
  deriving DecidableEq

/-- Run a sequence of queue operations from a state.  The run is feasible
(`some`) only when every `put` finds room and every `get` finds an item,
i.e. when no operation would block forever; the returned list collects the
values handed out by the successful `get`s, in order. -/
def cpRun (q : consumer_producer_t) : List CPOp →
    Option (consumer_producer_t × List (Option String))
  | [] => some (q, [])
  | CPOp.put s :: ops =>
    match consumer_producer_put q s with
    | none => none
    | some q2 => cpRun q2 ops
  | CPOp.get :: ops =>
    match consumer_producer_get q with
    | none => none
    | some (s, q2) =>
      match cpRun q2 ops with
      | none => none
      | some (qf, outs) => some (qf, s :: outs)

/-- The strings committed by the `put` operations of a history, in order. -/
def putsOf (ops : List CPOp) : List String :=
  ops.filterMap (fun op => match op with | CPOp.put s => some s | CPOp.get => none)

/-- Structural well-formedness of a queue state: ring length matches the
capacity, the capacity is positive, `count` is bounded, `head` is in range
and `tail` is the ring successor of the live region. -/
def cpWf (q : consumer_producer_t) : Prop :=
  q.items.length = q.capacity ∧ 0 < q.capacity ∧ q.count ≤ q.capacity ∧
    q.head < q.capacity ∧ q.tail = (q.head + q.count) % q.capacity

/-- The slots of the live region `[head, head+count) mod capacity` are all
occupied (non-NULL). -/
def cpLive (q : consumer_producer_t) : Prop :=
  ∀ i, i < q.count → (q.items.getD ((q.head + i) % q.capacity) none).isSome

/-- Abstraction of a queue state: the contents of the live region, in ring
order starting at `head`. -/
def absQ (q : consumer_producer_t) : List (Option String) :=
  (List.range q.count).map (fun i => q.items.getD ((q.head + i) % q.capacity) none)

/-- Full queue invariant of the amended claim: structural bounds, `tail` in
range, and every slot of the live region occupied. -/
def cpInv (q : consumer_producer_t) : Prop :=
  cpWf q ∧ q.tail < q.capacity ∧ cpLive q

/-- Queue invariant exactly as the original claim states it: a slot is
occupied if and only if it lies in the live region `[head, head+count)`. -/
def cpExactLive (q : consumer_producer_t) : Prop :=
  q.count ≤ q.capacity ∧ q.head < q.capacity ∧ q.tail < q.capacity ∧
    ∀ idx, idx < q.capacity →
      ((q.items.getD idx none).isSome = true ↔
        ∃ i, i < q.count ∧ idx = (q.head + i) % q.capacity)

/-- Right rotation by one, as rotator's `plugin_transform` computes it:
the last character followed by the first `len-1` characters. -/
def rotR (l : List Char) : List Char :=
  match l.reverse with
  | [] => []
  | c :: t => c :: t.reverse

/-- The rotator transform (src/unnamed/part_001, `plugin_transform`):
NULL becomes the empty string, the terminator passes unchanged, strings of
length ≤ 1 are returned as copies, anything else is rotated right by one. -/
def rotator_transform (input : Option String) : Option String :=
  match input with
  | none => some ""
  | some s =>
    if s = "<END>" then some s
    else if s.length ≤ 1 then some s
    else some (String.mk (rotR s.data))

/-- One application of the rotator stage to a present line. -/
def rotatorStep (s : String) : String := (rotator_transform (some s)).getD ""

/-- ASCII `toupper` in the C locale, as uppercaser applies it per byte. -/
def upperChar (c : Char) : Char :=
  if 'a' ≤ c ∧ c ≤ 'z' then Char.ofNat (c.toNat - 32) else c

/-- The uppercaser transform (src/plugins/uppercase.c, `plugin_transform`). -/
def uppercase_transform (input : Option String) : Option String :=
  match input with
  | none => some ""
  | some s =>
    if s = "<END>" then some s
    else some (String.mk (s.data.map upperChar))

/-- The flipper transform (src/plugins/flipper.c, `plugin_transform`):
byte-reversal. -/
def flipper_transform (input : Option String) : Option String :=
  match input with
  | none => some ""
  | some s =>
    if s = "<END>" then some s
    else some (String.mk s.data.reverse)

/-- The logger transform (src/plugins/logger.c, `plugin_transform`): writes
the line to stdout (an I/O effect outside this embedding) and returns a
copy of it. -/
def logger_transform (input : Option String) : Option String :=
  match input with
  | none => some ""
  | some s =>
    if s = "<END>" then some s
    else some s

/-- The expander transform (tail of src/main.c, `plugin_transform`): a
space between every two consecutive characters. -/
def expander_transform (input : Option String) : Option String :=
  match input with
  | none => some ""
  | some s =>
    if s = "<END>" then some s
    else if s.length = 0 then some ""
    else some (String.mk (List.intersperse ' ' s.data))

/-- The typewriter transform (`plugin_transform` in the typewriter source,
appended after the document separator in src/plugins/sync/monitor.c): a
NULL input becomes the empty string; the terminator passes unchanged
without printing; any other line is written to stdout character by
character with a 100 ms pause between characters (an I/O and timing effect
outside this embedding, and skipped entirely for the empty line) and a
copy of the input is returned. -/
def typewriter_transform (input : Option String) : Option String :=
  match input with
  | none => some ""
  | some s =>
    if s = "<END>" then some s
    else some s

/-- Calls the driver makes on the plugin handles during the init and
shutdown phases of main.c. -/
inductive DriverEvent where
  | init (i : Nat)
  | wait_finished (i : Nat)
  | fini (i : Nat)
  | dlclose (i : Nat)
  deriving DecidableEq

/-- Outcome of a driver phase: the calls made in order, and `some k` when
`print_error_and_exit(k, ...)` terminated the process (or `exit(2)` for the
init rollback), `none` when the phase fell through normally. -/
structure DriverResult where
  events : List DriverEvent
  exitCode : Option Nat
  deriving DecidableEq

/-- The rollback block of `init_plugin` (main.c) after a failure at global
index `k` in a pipeline of `n` stages: `fini` then `dlclose` on stages
`k` down to `0`, then `dlclose` on stages `k+1` to `n-1`. -/
def rollbackEvents (k n : Nat) : List DriverEvent :=
  ((List.range (k + 1)).reverse.map
      (fun j => [DriverEvent.fini j, DriverEvent.dlclose j])).flatten
    ++ (List.range (n - (k + 1))).map (fun t => DriverEvent.dlclose (k + 1 + t))

/-- The init loop of `init_plugin` (main.c, Step 3): call each stage's
`init(queue_size)` in order; on the first non-NULL error string run the
rollback and exit with code 2.  `base` is the global index of the first
remaining stage and `n` the total stage count; the list holds the values
each remaining stage's `init` returns. -/
def init_plugin_go (base n : Nat) : List (Option String) → List DriverEvent × Option Nat
  | [] => ([], none)
  | none :: rest =>
    let r := init_plugin_go (base + 1) n rest
    (DriverEvent.init base :: r.1, r.2)
  | some _ :: _rest =>
    (DriverEvent.init base :: rollbackEvents base n, some 2)

/-- `init_plugin` (main.c): run the init loop over the whole pipeline.
The list holds, per stage, the error string its `init(queue_size)` returns
(`none` on success). -/
def init_plugin (initRes : List (Option String)) : DriverResult :=
  let r := init_plugin_go 0 initRes.length initRes
  ⟨r.1, r.2⟩

/-- The wait loop of `teardown` (main.c, Step 6): call each stage's
`wait_finished()` in order; a non-NULL error string aborts the process
immediately with exit code 1. -/
def teardownWaits (base : Nat) : List (Option String) → List DriverEvent × Option Nat
  | [] => ([], none)
  | none :: rest =>
    let r := teardownWaits (base + 1) rest
    (DriverEvent.wait_finished base :: r.1, r.2)
  | some _ :: _rest =>
    ([DriverEvent.wait_finished base], some 1)

/-- The cleanup loop of `teardown` (main.c, Step 7), which walks the stages
in reverse index order (the argument list is already reversed and carries
each stage's index): call `fini()`; a non-NULL error string aborts with
exit code 1, otherwise `dlclose` the module and continue. -/
def teardownFinis : List (Nat × Option String) → List DriverEvent × Option Nat
  | [] => ([], none)
  | (i, none) :: rest =>
    let r := teardownFinis rest
    (DriverEvent.fini i :: DriverEvent.dlclose i :: r.1, r.2)
  | (i, some _) :: _rest =>
    ([DriverEvent.fini i], some 1)

/-- `teardown` (main.c, Steps 6+7).  Each stage is a pair of the value its
`wait_finished()` returns and the value its `fini()` returns (`none` on
success, `some err` on error). -/
def teardown (stages : List (Option String × Option String)) : DriverResult :=
  let w := teardownWaits 0 (stages.map Prod.fst)
  match w.2 with
  | some k => ⟨w.1, some k⟩
  | none =>
    let f := teardownFinis
      (((List.range stages.length).zip (stages.map Prod.snd)).reverse)
    ⟨w.1 ++ f.1, f.2⟩

/-- The per-module plugin context (`plugin_context_t` of the shared plugin
layer).  Function pointers are modelled by opaque identities (`Nat`), the
thread handle by a `Nat` that is `0` when no thread exists, and the C int
flags by `Bool`. -/
structure plugin_context_t where
  name : Option String
  queue : Option consumer_producer_t
  consumer_thread : Nat
  next_place_work : Option Nat
  process_function : Option Nat
  initialized : Bool
  finished : Bool
  deriving DecidableEq

/-- `common_plugin_init` (plugin_common.c): guard against double init, a
NULL transform and a non-positive queue size; allocate and initialize the
queue; record name/transform/attachment; spawn the worker.  `mallocFail`
and `threadFail` are oracles for the host failures the source checks
(queue allocation, `pthread_create`); the state updates follow the source
statement by statement, including the partial updates left behind by the
thread-creation failure path. -/
def common_plugin_init (ctx : plugin_context_t) (pf : Option Nat)
    (nm : Option String) (queue_size : Int) (mallocFail threadFail : Bool) :
    plugin_context_t × Option String :=
  if ctx.initialized then (ctx, some "plugin already initialized")
  else if pf.isNone then (ctx, some "process_function is NULL")
  else if queue_size < 1 then (ctx, some "queue_size must be > 0")
  else if mallocFail then ({ ctx with queue := none }, some "failed to allocate queue")
  else
    match consumer_producer_init queue_size with
    | Except.error e => ({ ctx with queue := none }, some e)
    | Except.ok q =>
      let ctx2 := { ctx with
        queue := some q
        name := some (nm.getD "plugin")
        process_function := pf
        next_place_work := none
        finished := false }
      if threadFail then
        ({ ctx2 with queue := none, process_function := none },
          some "failed to create consumer thread")
      else
        ({ ctx2 with consumer_thread := 1, initialized := true }, none)

/-- Observable actions of a stage worker, in program order. -/
inductive WorkerEvent where
  | got (s : String)
  | forwarded (s : String)
  | get_failed
  | signaled
  deriving DecidableEq

/-- The forwarding part of one non-terminator loop iteration: a failed
transform is logged and skipped; otherwise the transformed string is
forwarded when a next stage is attached. -/
def workerStepEvents (f : String → Option String) (attached : Bool)
    (s : String) : List WorkerEvent :=
  match f s with
  | none => []
  | some out => if attached then [WorkerEvent.forwarded out] else []

/-- `plugin_consumer_thread` (plugin_common.c) as a function of the values
its blocking `consumer_producer_get` calls return, in order (`none` models
a failed get).  The loop exits — and then signals the finished gate exactly
once — on a failed get or on the terminator; the terminator is forwarded
first when a next stage is attached.  A run whose input list is exhausted
without either is still blocked in `get` and has produced no signal. -/
def plugin_consumer_thread (f : String → Option String) (attached : Bool) :
    List (Option String) → List WorkerEvent
  | [] => []
  | none :: _rest => [WorkerEvent.get_failed, WorkerEvent.signaled]
  | some s :: rest =>
    if s = "<END>" then
      WorkerEvent.got s ::
        ((if attached then [WorkerEvent.forwarded "<END>"] else []) ++
          [WorkerEvent.signaled])
    else
      WorkerEvent.got s ::
        (workerStepEvents f attached s ++ plugin_consumer_thread f attached rest)

/-- C `isspace` in the default locale, as `strtol` skips it. -/
def isSpaceC (c : Char) : Bool :=
  c = ' ' || c = '\t' || c = '\n' || c = '\x0b' || c = '\x0c' || c = '\r'

/-- ASCII decimal digit. -/
def isDigitC (c : Char) : Bool := '0' ≤ c && c ≤ '9'

/-- `strtol(arg, &endptr, 10)` on a 64-bit long: skip whitespace, read an
optional sign and then decimal digits, clamping the value to
`[LONG_MIN, LONG_MAX]`; returns the value and the unconsumed remainder
(`endptr`).  When no digits were read, no conversion is performed: the
value is 0 and `endptr` is the original pointer. -/
def strtol10 (s : List Char) : Int × List Char :=
  let afterSpace := s.dropWhile isSpaceC
  let signed : Bool × List Char :=
    match afterSpace with
    | '-' :: rest => (true, rest)
    | '+' :: rest => (false, rest)
    | _ => (false, afterSpace)
  let digits := signed.2.takeWhile isDigitC
  let rest := signed.2.dropWhile isDigitC
  if digits.isEmpty then (0, s)
  else
    let mag : Nat := digits.foldl (fun acc c => acc * 10 + (c.toNat - '0'.toNat)) 0
    let v : Int := if signed.1 then -(mag : Int) else (mag : Int)
    let clamped :=
      if v > 9223372036854775807 then (9223372036854775807 : Int)
      else if v < -9223372036854775808 then (-9223372036854775808 : Int)
      else v
    (clamped, rest)

/-- Conversion of a C long to a C int (two's-complement wrap-around, the
behaviour of the reference compiler), as `cfg->queue_size = (int)value`
performs it. -/
def toInt32 (x : Int) : Int := (x + 2147483648) % 4294967296 - 2147483648

/-- The queue-size part of `parse_command_line` (main.c): the argument is
rejected — usage printed, exit code 1 — exactly when `strtol` left
unconsumed characters or produced a value below 1; otherwise the value is
stored into the C int `queue_size`. -/
def parse_command_line_queue (argv1 : String) : Except Nat Int :=
  let r := strtol10 argv1.data
  if r.2 ≠ [] ∨ r.1 < 1 then Except.error 1
  else Except.ok (toInt32 r.1)

/-- Number of characters one `fgets(buf, 1025, stdin)` call consumes from
the pending input: up to `budget` (1024) characters, stopping right after
a newline. -/
def fgetsN : List Char → Nat → Nat
  | [], _ => 0
  | _ :: _, 0 => 0
  | c :: cs, b + 1 => if c = '\n' then 1 else 1 + fgetsN cs b

/-- One iteration of the `feed_input` read loop (main.c): read a chunk with
`fgets`, strip one trailing newline, and — when the chunk filled the whole
1024-byte buffer without a newline — swallow one immediately following
newline (`fgetc`/`ungetc`).  Returns the line handed to `place_work` and
the remaining stdin. -/
def feedStep (input : List Char) : String × List Char :=
  let n := fgetsN input 1024
  let chunk := input.take n
  let rest := input.drop n
  let line := if chunk.getLast? = some '\n' then chunk.dropLast else chunk
  let rest2 :=
    if chunk.getLast? ≠ some '\n' ∧ chunk.length = 1024 then
      (if rest.head? = some '\n' then rest.tail else rest)
    else rest
  (String.mk line, rest2)

/-- The `feed_input` read loop with explicit fuel (each iteration consumes
at least one character, so `input.length` fuel always suffices): submit
each line to `place_work` in order, stopping after submitting the
terminator line. -/
def feed_input_go : Nat → List Char → List String
  | 0, _ => []
  | _ + 1, [] => []
  | fuel + 1, c :: cs =>
    let st := feedStep (c :: cs)
    if st.1 = "<END>" then ["<END>"]
    else st.1 :: feed_input_go fuel st.2

/-- `feed_input` (main.c): the sequence of strings submitted to
`stage[0].place_work` for a given stdin contents. -/
def feed_input (input : List Char) : List String :=
  feed_input_go input.length input

/-- The 1024-byte chunking of a newline-free byte sequence, with fuel. -/
def chunksGo : Nat → List Char → List (List Char)
  | 0, l => [l]
  | fuel + 1, l =>
    if l.length ≤ 1024 then [l] else l.take 1024 :: chunksGo fuel (l.drop 1024)

/-- The 1024-byte chunking of a byte sequence. -/
def chunks1024 (l : List Char) : List (List Char) := chunksGo l.length l

/- Theorems: the claims, their witnesses and counterexamples, and helper lemmas. -/

theorem absQ_length (q : consumer_producer_t) : (absQ q).length = q.count := by
  simp [absQ]

theorem getD_set_ne {l : List (Option String)} {i j : Nat} {a : Option String}
    (h : i ≠ j) : (l.set i a).getD j none = l.getD j none := by
  simp [List.getD_eq_getElem?_getD, List.getElem?_set_ne h]

theorem getD_set_self {l : List (Option String)} {i : Nat} {a : Option String}
    (h : i < l.length) : (l.set i a).getD i none = a := by
  simp [List.getD_eq_getElem?_getD, List.getElem?_set_self, h]

/-- Ring-index injectivity: two in-range offsets from `head` that land on the
same slot are equal. -/
theorem ring_index_inj {c h i j : Nat} (hi : i < c) (hj : j < c)
    (hij : (h + i) % c = (h + j) % c) : i = j := by
  have hmod : i % c = j % c := Nat.ModEq.add_left_cancel' h hij
  rwa [Nat.mod_eq_of_lt hi, Nat.mod_eq_of_lt hj] at hmod

/-- A committed `put` preserves well-formedness and appends the new item to
the abstraction. -/
theorem put_absQ {q q2 : consumer_producer_t} {s : String} (hwf : cpWf q)
    (hput : consumer_producer_put q s = some q2) :
    cpWf q2 ∧ absQ q2 = absQ q ++ [some s] := by
  obtain ⟨hlen, hc, hcount, hhead, htail⟩ := hwf
  unfold consumer_producer_put at hput
  by_cases hfull : q.count = q.capacity
  · simp [hfull] at hput
  · simp only [hfull, if_false, Option.some.injEq] at hput
    subst hput
    have hlt : q.count < q.capacity := lt_of_le_of_ne hcount hfull
    constructor
    · refine ⟨?_, ?_, ?_, ?_, ?_⟩
      · show (q.items.set q.tail (some s)).length = q.capacity
        simpa using hlen
      · show 0 < q.capacity
        exact hc
      · show q.count + 1 ≤ q.capacity
        omega
      · show q.head < q.capacity
        exact hhead
      · show (q.tail + 1) % q.capacity = (q.head + (q.count + 1)) % q.capacity
        rw [htail, Nat.mod_add_mod]
        congr 1
    · have htail_lt : q.tail < q.items.length := by
        rw [hlen, htail]; exact Nat.mod_lt _ hc
      simp only [absQ]
      rw [List.range_succ, List.map_append]
      congr 1
      · apply List.map_congr_left
        intro i hi
        simp only [List.mem_range] at hi
        apply getD_set_ne
        rw [htail]
        intro hcontra
        have : q.count = i := ring_index_inj hlt (lt_of_lt_of_le hi hcount) hcontra
        omega
      · simp only [List.map_cons, List.map_nil]
        congr 1
        rw [← htail]
        exact getD_set_self htail_lt

theorem cpWf_init {c : Int} {q : consumer_producer_t}
    (h : consumer_producer_init c = Except.ok q) : cpWf q ∧ absQ q = [] := by
  unfold consumer_producer_init at h
  by_cases hc : c < 1
  · simp [hc] at h
  · simp only [hc, if_false, Except.ok.injEq] at h
    subst h
    refine ⟨⟨by simp, ?_, by simp, ?_, by simp⟩, by simp [absQ]⟩
    · show 0 < c.toNat
      omega
    · show 0 < c.toNat
      omega

/-- A committed `get` preserves well-formedness; the abstraction loses its
front element, which is the returned value. -/
theorem get_absQ {q q2 : consumer_producer_t} {s : Option String} (hwf : cpWf q)
    (hget : consumer_producer_get q = some (s, q2)) :
    cpWf q2 ∧ absQ q = s :: absQ q2 := by
  obtain ⟨hlen, hc, hcount, hhead, htail⟩ := hwf
  unfold consumer_producer_get at hget
  by_cases hempty : q.count = 0
  · simp [hempty] at hget
  · simp only [hempty, if_false, Option.some.injEq, Prod.mk.injEq] at hget
    obtain ⟨hs, hq2⟩ := hget
    subst hq2
    constructor
    · refine ⟨?_, ?_, ?_, ?_, ?_⟩
      · show q.items.length = q.capacity
        exact hlen
      · show 0 < q.capacity
        exact hc
      · show q.count - 1 ≤ q.capacity
        omega
      · show (q.head + 1) % q.capacity < q.capacity
        exact Nat.mod_lt _ hc
      · show q.tail = ((q.head + 1) % q.capacity + (q.count - 1)) % q.capacity
        rw [Nat.mod_add_mod, htail]
        congr 1
        omega
    · obtain ⟨m, hcnt⟩ : ∃ m, q.count = m + 1 := ⟨q.count - 1, by omega⟩
      simp only [absQ, hcnt, Nat.add_sub_cancel]
      rw [List.range_succ_eq_map, List.map_cons, List.map_map]
      congr 1
      · rw [Nat.add_zero, Nat.mod_eq_of_lt hhead]
        exact hs
      · apply List.map_congr_left
        intro i hi
        simp only [Function.comp_apply]
        rw [Nat.mod_add_mod]
        congr 2
        omega

/-- Invariant of a feasible run: the initial contents extended by all items
put equals the got items followed by the final contents.  FIFO order and
slot liveness both follow from this single equation. -/
theorem cpRun_absQ : ∀ (ops : List CPOp) (q qf : consumer_producer_t)
    (outs : List (Option String)), cpWf q → cpRun q ops = some (qf, outs) →
    cpWf qf ∧ absQ q ++ (putsOf ops).map some = outs ++ absQ qf
  | [], q, qf, outs, hwf, hrun => by
    simp only [cpRun, Option.some.injEq, Prod.mk.injEq] at hrun
    obtain ⟨rfl, rfl⟩ := hrun
    simpa [putsOf] using hwf
  | CPOp.put s :: ops, q, qf, outs, hwf, hrun => by
    simp only [cpRun] at hrun
    cases hput : consumer_producer_put q s with
    | none => rw [hput] at hrun; exact absurd hrun (by simp)
    | some q2 =>
      rw [hput] at hrun
      obtain ⟨hwf2, habs⟩ := put_absQ hwf hput
      obtain ⟨hwff, heq⟩ := cpRun_absQ ops q2 qf outs hwf2 hrun
      refine ⟨hwff, ?_⟩
      have hputs : putsOf (CPOp.put s :: ops) = s :: putsOf ops := by
        simp [putsOf]
      rw [hputs, List.map_cons, ← heq, habs]
      simp
  | CPOp.get :: ops, q, qf, outs, hwf, hrun => by
    simp only [cpRun] at hrun
    cases hget : consumer_producer_get q with
    | none => rw [hget] at hrun; exact absurd hrun (by simp)
    | some pr =>
      obtain ⟨s, q2⟩ := pr
      rw [hget] at hrun
      have hrun2 : (match cpRun q2 ops with
          | none => none
          | some (qf2, outs2) => some (qf2, s :: outs2)) = some (qf, outs) := hrun
      cases hrec : cpRun q2 ops with
      | none => rw [hrec] at hrun2; exact absurd hrun2 (by simp)
      | some pr2 =>
        obtain ⟨qf2, outs2⟩ := pr2
        rw [hrec] at hrun2
        simp only [Option.some.injEq, Prod.mk.injEq] at hrun2
        obtain ⟨h1, h2⟩ := hrun2
        obtain ⟨hwf2, habs⟩ := get_absQ hwf hget
        obtain ⟨hwff, heq⟩ := cpRun_absQ ops q2 qf2 outs2 hwf2 hrec
        rw [← h1, ← h2]
        refine ⟨hwff, ?_⟩
        have hputs : putsOf (CPOp.get :: ops) = putsOf ops := by
          simp [putsOf]
        rw [hputs, habs]
        simp [heq]

theorem absQ_all_isSome {q : consumer_producer_t} (h : cpLive q) :
    ∀ x ∈ absQ q, x.isSome = true := by
  intro x hx
  simp only [absQ, List.mem_map, List.mem_range] at hx
  obtain ⟨i, hi, rfl⟩ := hx
  exact h i hi

theorem cpLive_of_absQ {q : consumer_producer_t}
    (h : ∀ x ∈ absQ q, x.isSome = true) : cpLive q := by
  intro i hi
  exact h _ (List.mem_map_of_mem _ (List.mem_range.mpr hi))

theorem cpInv_of_wf {q : consumer_producer_t} (hwf : cpWf q)
    (hall : ∀ x ∈ absQ q, x.isSome = true) : cpInv q := by
  refine ⟨hwf, ?_, cpLive_of_absQ hall⟩
  obtain ⟨-, hc, -, -, htail⟩ := hwf
  rw [htail]
  exact Nat.mod_lt _ hc

/-- C4: for a Channel under a single producer and single consumer, every
feasible operation history delivers the put strings to the gets unchanged
and in FIFO order: the i-th successful get returns exactly the i-th
successfully put string. -/
theorem consumer_producer_fifo (c : Int) (ops : List CPOp)
    (q0 qf : consumer_producer_t) (outs : List (Option String))
    (hinit : consumer_producer_init c = Except.ok q0)
    (hrun : cpRun q0 ops = some (qf, outs)) :
    outs = ((putsOf ops).take outs.length).map some := by
  obtain ⟨hwf, habs0⟩ := cpWf_init hinit
  obtain ⟨-, heq⟩ := cpRun_absQ ops q0 qf outs hwf hrun
  rw [habs0, List.nil_append] at heq
  have houts : outs = ((putsOf ops).map some).take outs.length := by
    rw [heq, List.take_left]
  calc outs = ((putsOf ops).map some).take outs.length := houts
    _ = ((putsOf ops).take outs.length).map some := by rw [List.map_take]

/-- Witness for C4: a concrete feasible history on a capacity-2 Channel
whose two gets return the two puts in order. -/
theorem consumer_producer_fifo_witness :
    ([some "x", some "y"] : List (Option String)) =
      ((putsOf [CPOp.put "x", CPOp.put "y", CPOp.get, CPOp.get]).take 2).map some :=
  consumer_producer_fifo 2 [CPOp.put "x", CPOp.put "y", CPOp.get, CPOp.get]
    ⟨2, [none, none], 0, 0, 0⟩ ⟨2, [some "x", some "y"], 0, 0, 0⟩
    [some "x", some "y"] (by rfl) (by rfl)

/-- C5 (amended): from any successful initialization, every feasible history
of puts and gets keeps `0 ≤ count ≤ capacity`, `head` and `tail` in
`[0, capacity)`, and all slots of `[head, head+count) mod capacity`
occupied; moreover each put and each get preserves this invariant.  (The
bidirectional "exactly" of the original claim fails: a get leaves a stale
non-NULL slot outside the live region, see the counterexample.) -/
theorem consumer_producer_invariant (c : Int) (ops : List CPOp)
    (q0 qf : consumer_producer_t) (outs : List (Option String))
    (hinit : consumer_producer_init c = Except.ok q0)
    (hrun : cpRun q0 ops = some (qf, outs)) :
    cpInv qf ∧
      (∀ q q2 s, cpInv q → consumer_producer_put q s = some q2 → cpInv q2) ∧
      (∀ q q2 s, cpInv q → consumer_producer_get q = some (s, q2) → cpInv q2) := by
  refine ⟨?_, ?_, ?_⟩
  · obtain ⟨hwf, habs0⟩ := cpWf_init hinit
    obtain ⟨hwff, heq⟩ := cpRun_absQ ops q0 qf outs hwf hrun
    rw [habs0, List.nil_append] at heq
    refine cpInv_of_wf hwff ?_
    intro x hx
    have hxmem : x ∈ (putsOf ops).map some := by
      rw [heq]
      exact List.mem_append_right _ hx
    simp only [List.mem_map] at hxmem
    obtain ⟨y, -, rfl⟩ := hxmem
    rfl
  · intro q q2 s hq hput
    obtain ⟨hwf2, habs⟩ := put_absQ hq.1 hput
    refine cpInv_of_wf hwf2 ?_
    intro x hx
    rw [habs] at hx
    rcases List.mem_append.mp hx with hmem | hmem
    · exact absQ_all_isSome hq.2.2 x hmem
    · simp only [List.mem_singleton] at hmem
      subst hmem
      rfl
  · intro q q2 s hq hget
    obtain ⟨hwf2, habs⟩ := get_absQ hq.1 hget
    refine cpInv_of_wf hwf2 ?_
    intro x hx
    exact absQ_all_isSome hq.2.2 x (by rw [habs]; exact List.mem_cons_of_mem _ hx)

/-- Witness for C5: the invariant holds after the concrete history
put "x", put "y", get on a capacity-2 Channel. -/
theorem consumer_producer_invariant_witness :
    cpInv ⟨2, [some "x", some "y"], 1, 1, 0⟩ :=
  (consumer_producer_invariant 2 [CPOp.put "x", CPOp.put "y", CPOp.get]
    ⟨2, [none, none], 0, 0, 0⟩ ⟨2, [some "x", some "y"], 1, 1, 0⟩
    [some "x"] (by rfl) (by rfl)).1

/-- Counterexample to C5 as stated: on a capacity-1 Channel, after
init, put "a", get — all committed operations of a feasible history — the
dequeued slot still holds its stale string, so an occupied slot lies
outside `[head, head+count)`: the "exactly" direction fails. -/
theorem consumer_producer_exact_live_counterexample :
    consumer_producer_init 1 = Except.ok ⟨1, [none], 0, 0, 0⟩ ∧
      consumer_producer_put ⟨1, [none], 0, 0, 0⟩ "a" = some ⟨1, [some "a"], 1, 0, 0⟩ ∧
      consumer_producer_get ⟨1, [some "a"], 1, 0, 0⟩ =
        some (some "a", ⟨1, [some "a"], 0, 0, 0⟩) ∧
      ¬ cpExactLive ⟨1, [some "a"], 0, 0, 0⟩ := by
  refine ⟨rfl, rfl, rfl, ?_⟩
  intro h
  obtain ⟨-, -, -, hx⟩ := h
  obtain ⟨i, hi, -⟩ := (hx 0 Nat.one_pos).mp rfl
  simp at hi

/-- C9: each of the six transforms maps a NULL input pointer to a fresh
empty string instead of failing. -/
theorem transforms_null_to_empty :
    logger_transform none = some "" ∧ uppercase_transform none = some "" ∧
      rotator_transform none = some "" ∧ flipper_transform none = some "" ∧
      expander_transform none = some "" ∧ typewriter_transform none = some "" :=
  ⟨rfl, rfl, rfl, rfl, rfl, rfl⟩

theorem rotR_eq_rotate (l : List Char) : rotR l = l.rotate (l.length - 1) := by
  cases hrev : l.reverse with
  | nil =>
    have hnil : l = [] := by simpa using congrArg List.reverse hrev
    subst hnil
    simp [rotR]
  | cons c t =>
    have hl : l = t.reverse ++ [c] := by simpa using congrArg List.reverse hrev
    have hrot : rotR l = c :: t.reverse := by
      unfold rotR
      rw [hrev]
    rw [hrot, hl]
    have hlen : (t.reverse ++ [c]).length - 1 = t.reverse.length := by simp
    rw [hlen, List.rotate_eq_drop_append_take (by simp)]
    simp

theorem length_rotR (l : List Char) : (rotR l).length = l.length := by
  rw [rotR_eq_rotate, List.length_rotate]

theorem rotR_iterate (l : List Char) : ∀ m, rotR^[m] l = l.rotate ((l.length - 1) * m)
  | 0 => by simp
  | m + 1 => by
    rw [Function.iterate_succ_apply', rotR_iterate l m, rotR_eq_rotate,
      List.length_rotate, List.rotate_rotate, Nat.mul_succ]

theorem rotR_iterate_length (l : List Char) : rotR^[l.length] l = l := by
  rw [rotR_iterate, Nat.mul_comm, List.rotate_length_mul]

theorem rotR_short {l : List Char} (h : l.length ≤ 1) : rotR l = l := by
  match l with
  | [] => rfl
  | [c] => rfl
  | c :: d :: t => simp at h

/-- On a non-terminator line the rotator step is exactly the right
rotation (for length ≤ 1 the rotation is the identity, matching the
copy branch of the source). -/
theorem rotatorStep_eq_rotR {s : String} (h : s ≠ "<END>") :
    rotatorStep s = String.mk (rotR s.data) := by
  show ((if s = "<END>" then some s
      else if s.length ≤ 1 then some s
      else some (String.mk (rotR s.data))) : Option String).getD "" =
    String.mk (rotR s.data)
  rw [if_neg h]
  by_cases hlen : s.length ≤ 1
  · rw [if_pos hlen]
    have hshort : rotR s.data = s.data := rotR_short hlen
    rw [hshort]
    rfl
  · rw [if_neg hlen]
    rfl

theorem rotator_iter_eq (s : String) (n : Nat)
    (h : ∀ k, k < n → rotatorStep^[k] s ≠ "<END>") :
    ∀ k, k ≤ n → rotatorStep^[k] s = String.mk (rotR^[k] s.data)
  | 0, _ => rfl
  | k + 1, hk1 => by
    have hk : k ≤ n := Nat.le_of_succ_le hk1
    have hik := rotator_iter_eq s n h k hk
    have hne : String.mk (rotR^[k] s.data) ≠ "<END>" := by
      rw [← hik]
      exact h k (Nat.lt_of_lt_of_le (Nat.lt_succ_self k) hk1)
    rw [Function.iterate_succ_apply', hik, rotatorStep_eq_rotR hne,
      Function.iterate_succ_apply']

/-- C7 (amended): applying the rotator `n = s.length` times returns `s`,
provided `s` is the terminator itself (which every application passes
through unchanged) or no intermediate iterate equals the terminator; and
on any non-terminator input a single application is the right rotation
`s[n-1] + s[0..n-1]` (a plain copy when `n ≤ 1`). -/
theorem rotator_identity (s : String)
    (h : s = "<END>" ∨ ∀ k, k < s.length → rotatorStep^[k] s ≠ "<END>") :
    rotatorStep^[s.length] s = s ∧
      (s ≠ "<END>" → rotatorStep s = String.mk (rotR s.data)) := by
  constructor
  · rcases h with hEnd | hne
    · subst hEnd
      exact Function.iterate_fixed rfl _
    · rw [rotator_iter_eq s s.length hne s.length le_rfl,
        show s.length = s.data.length from rfl, rotR_iterate_length]
  · intro hne
    exact rotatorStep_eq_rotR hne

/-- Witness for C7: rotating "abc" three times restores it, and one step
yields "cab". -/
theorem rotator_identity_witness :
    rotatorStep^[("abc" : String).length] "abc" = "abc" ∧
      (("abc" : String) ≠ "<END>" → rotatorStep "abc" = String.mk (rotR "abc".data)) :=
  rotator_identity "abc" (Or.inr (by decide))

/-- Counterexample to C7 as stated: "END><" has length 5, but its first
rotation is the terminator, which all later applications pass through
unchanged, so five applications yield "<END>" and not the original; and on
the terminator itself a single application is not the stated rotation. -/
theorem rotator_identity_counterexample :
    (rotatorStep^[5] "END><" = "<END>" ∧ ("<END>" : String) ≠ "END><") ∧
      rotatorStep "<END>" = "<END>" ∧ ("<END>" : String) ≠ "><END" := by
  refine ⟨⟨?_, by decide⟩, ?_, by decide⟩
  · decide
  · decide

theorem map_range_succ_shift {α : Type} (g : Nat → α) (n base : Nat) :
    (List.range (n + 1)).map (fun j => g (base + j)) =
      g base :: (List.range n).map (fun j => g (base + 1 + j)) := by
  rw [List.range_succ_eq_map, List.map_cons, List.map_map]
  congr 1
  apply List.map_congr_left
  intro j hj
  simp only [Function.comp_apply]
  congr 1
  omega

theorem teardownWaits_first_error : ∀ (l : List (Option String)) (base k : Nat)
    (e : String), l.getD k none = some e → (∀ j, j < k → l.getD j none = none) →
    k < l.length →
    teardownWaits base l =
      ((List.range (k + 1)).map (fun j => DriverEvent.wait_finished (base + j)), some 1)
  | [], base, k, e, hk, hb, hlen => by simp at hlen
  | r :: rest, base, 0, e, hk, hb, hlen => by
    simp only [List.getD_cons_zero] at hk
    subst hk
    simp [teardownWaits, List.range_succ]
  | r :: rest, base, k + 1, e, hk, hb, hlen => by
    have hr : r = none := by simpa using hb 0 (Nat.succ_pos k)
    subst hr
    have ih := teardownWaits_first_error rest (base + 1) k e (by simpa using hk)
      (fun j hj => by simpa using hb (j + 1) (Nat.succ_lt_succ hj))
      (by simpa using hlen)
    rw [show teardownWaits base (none :: rest) =
        (DriverEvent.wait_finished base :: (teardownWaits (base + 1) rest).1,
          (teardownWaits (base + 1) rest).2) from rfl, ih,
      map_range_succ_shift DriverEvent.wait_finished (k + 1) base]

theorem teardownWaits_all_ok : ∀ (l : List (Option String)) (base : Nat),
    (∀ r ∈ l, r = none) →
    teardownWaits base l =
      ((List.range l.length).map (fun j => DriverEvent.wait_finished (base + j)), none)
  | [], base, h => by simp [teardownWaits]
  | r :: rest, base, h => by
    have hr : r = none := h r (List.mem_cons_self r rest)
    subst hr
    have ih := teardownWaits_all_ok rest (base + 1)
      (fun x hx => h x (List.mem_cons_of_mem _ hx))
    rw [show teardownWaits base (none :: rest) =
        (DriverEvent.wait_finished base :: (teardownWaits (base + 1) rest).1,
          (teardownWaits (base + 1) rest).2) from rfl, ih,
      show (none :: rest : List (Option String)).length = rest.length + 1 from rfl,
      map_range_succ_shift DriverEvent.wait_finished rest.length base]

theorem teardownFinis_split : ∀ (pre : List (Nat × Option String)) (k : Nat)
    (e : String) (rest : List (Nat × Option String)), (∀ p ∈ pre, p.2 = none) →
    teardownFinis (pre ++ (k, some e) :: rest) =
      ((pre.map (fun p => [DriverEvent.fini p.1, DriverEvent.dlclose p.1])).flatten
        ++ [DriverEvent.fini k], some 1)
  | [], k, e, rest, h => by simp [teardownFinis]
  | (i, r) :: pre, k, e, rest, h => by
    have hr : r = none := h (i, r) (List.mem_cons_self _ _)
    subst hr
    have ih := teardownFinis_split pre k e rest
      (fun p hp => h p (List.mem_cons_of_mem _ hp))
    rw [List.cons_append,
      show teardownFinis ((i, none) :: (pre ++ (k, some e) :: rest)) =
        (DriverEvent.fini i :: DriverEvent.dlclose i ::
            (teardownFinis (pre ++ (k, some e) :: rest)).1,
          (teardownFinis (pre ++ (k, some e) :: rest)).2) from rfl, ih]
    simp

theorem teardown_wait_err {stages : List (Option String × Option String)}
    {evs : List DriverEvent}
    (h : teardownWaits 0 (stages.map Prod.fst) = (evs, some 1)) :
    teardown stages = ⟨evs, some 1⟩ := by
  simp only [teardown, h]

theorem teardown_wait_ok {stages : List (Option String × Option String)}
    {wevs fevs : List DriverEvent} {fcode : Option Nat}
    (hw : teardownWaits 0 (stages.map Prod.fst) = (wevs, none))
    (hf : teardownFinis
        (((List.range stages.length).zip (stages.map Prod.snd)).reverse) =
      (fevs, fcode)) :
    teardown stages = ⟨wevs ++ fevs, fcode⟩ := by
  simp only [teardown, hw, hf]

/-- Counterexample to C1 as stated: with two stages whose first
`wait_finished` reports "boom", `teardown` exits with code 1 immediately —
stage 1 is never asked to `wait_finished` and no stage's `fini` runs, so
the driver does not drain the remaining stages. -/
theorem teardown_drain_counterexample :
    teardown [(some "boom", none), (none, none)] =
      ⟨[DriverEvent.wait_finished 0], some 1⟩ ∧
      DriverEvent.wait_finished 1 ∉
        (teardown [(some "boom", none), (none, none)]).events ∧
      DriverEvent.fini 1 ∉
        (teardown [(some "boom", none), (none, none)]).events := by
  refine ⟨by decide, by decide, by decide⟩

/-- C1 (amended): when a stage's `wait_finished` or `fini` reports an
error, the driver prints it and exits with code 1 at once, without invoking
`wait_finished`/`fini` on any stage not yet processed.  Part one: the first
`wait_finished` error at index `k` stops the run after exactly the waits
`0..k`.  Part two: when all waits succeed and the reverse `fini` sweep
first fails at the stage after `front`, the driver exits 1 having never
called `fini` on any earlier stage. -/
theorem teardown_exits_on_first_error
    (stages : List (Option String × Option String)) (k : Nat) (e : String) :
    ((stages.map Prod.fst).getD k none = some e →
      (∀ j, j < k → (stages.map Prod.fst).getD j none = none) →
      k < stages.length →
      teardown stages =
        ⟨(List.range (k + 1)).map DriverEvent.wait_finished, some 1⟩) ∧
    (∀ front st back, stages = front ++ st :: back →
      (∀ p ∈ stages, p.1 = none) → st.2 = some e →
      (∀ p ∈ back, p.2 = none) →
      (teardown stages).exitCode = some 1 ∧
        DriverEvent.fini front.length ∈ (teardown stages).events ∧
        ∀ j, j < front.length → DriverEvent.fini j ∉ (teardown stages).events) := by
  constructor
  · intro hk hb hlen
    have hw := teardownWaits_first_error (stages.map Prod.fst) 0 k e hk hb
      (by simpa using hlen)
    simp only [Nat.zero_add] at hw
    exact teardown_wait_err hw
  · intro front st back hsplit hall hst hback
    -- the wait phase succeeds on every stage
    have hwaits : ∀ r ∈ stages.map Prod.fst, r = none := by
      intro r hr
      obtain ⟨p, hp, rfl⟩ := List.mem_map.mp hr
      exact hall p hp
    have hw := teardownWaits_all_ok (stages.map Prod.fst) 0 hwaits
    simp only [Nat.zero_add, List.length_map] at hw
    -- decompose the reversed indexed fini list around the failing stage
    have hlen : stages.length = front.length + (back.length + 1) := by
      rw [hsplit]
      simp [Nat.add_comm]
    have hmapsnd : stages.map Prod.snd =
        front.map Prod.snd ++ st.2 :: back.map Prod.snd := by
      rw [hsplit]
      simp
    have hrange : List.range stages.length =
        List.range front.length ++
          (front.length ::
            (List.range back.length).map (fun j => front.length + 1 + j)) := by
      rw [hlen, List.range_add]
      congr 1
      have := map_range_succ_shift (fun x => x) back.length front.length
      simpa using this
    have hzip : (List.range stages.length).zip (stages.map Prod.snd) =
        (List.range front.length).zip (front.map Prod.snd) ++
          (front.length, st.2) ::
            ((List.range back.length).map (fun j => front.length + 1 + j)).zip
              (back.map Prod.snd) := by
      rw [hrange, hmapsnd, List.zip_append (by simp), List.zip_cons_cons]
    have hrev : ((List.range stages.length).zip (stages.map Prod.snd)).reverse =
        (((List.range back.length).map (fun j => front.length + 1 + j)).zip
            (back.map Prod.snd)).reverse ++
          (front.length, st.2) ::
            ((List.range front.length).zip (front.map Prod.snd)).reverse := by
      rw [hzip, List.reverse_append, List.reverse_cons, List.append_assoc,
        List.singleton_append]
    have hprenone : ∀ p ∈ (((List.range back.length).map
        (fun j => front.length + 1 + j)).zip (back.map Prod.snd)).reverse,
        p.2 = none := by
      intro p hp
      rw [List.mem_reverse] at hp
      obtain ⟨a, c⟩ := p
      have hc := (List.of_mem_zip hp).2
      obtain ⟨q, hq, rfl⟩ := List.mem_map.mp hc
      exact hback q hq
    rw [hst] at hrev
    have hf := teardownFinis_split
      ((((List.range back.length).map (fun j => front.length + 1 + j)).zip
        (back.map Prod.snd)).reverse)
      front.length e
      (((List.range front.length).zip (front.map Prod.snd)).reverse)
      hprenone
    rw [← hrev] at hf
    have hteq := teardown_wait_ok hw hf
    rw [hteq]
    refine ⟨rfl, ?_, ?_⟩
    · apply List.mem_append_right
      apply List.mem_append_right
      simp
    · intro j hj hmem
      rcases List.mem_append.mp hmem with hmem | hmem
      · obtain ⟨x, -, hx⟩ := List.mem_map.mp hmem
        exact DriverEvent.noConfusion hx
      · rcases List.mem_append.mp hmem with hmem | hmem
        · rw [List.mem_flatten] at hmem
          obtain ⟨lst, hlst, hmem⟩ := hmem
          obtain ⟨p, hp, rfl⟩ := List.mem_map.mp hlst
          rw [List.mem_reverse] at hp
          obtain ⟨a, c⟩ := p
          have ha := (List.of_mem_zip hp).1
          obtain ⟨t, -, rfl⟩ := List.mem_map.mp ha
          simp only [List.mem_cons, List.mem_singleton] at hmem
          rcases hmem with hx | hx | hx
          · injection hx with hx
            omega
          · exact DriverEvent.noConfusion hx
          · exact absurd hx (by simp)
        · simp only [List.mem_singleton] at hmem
          injection hmem with hx
          omega

/-- Witness for C1: the amended theorem at the concrete two-stage pipeline
whose first stage's `wait_finished` reports "boom". -/
theorem teardown_exits_on_first_error_witness :
    teardown [(some "boom", none), (none, none)] =
      ⟨[DriverEvent.wait_finished 0], some 1⟩ := by
  have h := (teardown_exits_on_first_error
    [(some "boom", none), (none, none)] 0 "boom").1 rfl
    (fun j hj => absurd hj (Nat.not_lt_zero j)) (by decide)
  simpa [List.range_succ] using h

theorem fini_mem_rollbackEvents {j k n : Nat} (h : j ≤ k) :
    DriverEvent.fini j ∈ rollbackEvents k n := by
  unfold rollbackEvents
  apply List.mem_append_left
  rw [List.mem_flatten]
  refine ⟨[DriverEvent.fini j, DriverEvent.dlclose j], ?_, by simp⟩
  apply List.mem_map_of_mem
  rw [List.mem_reverse, List.mem_range]
  omega

theorem dlclose_mem_rollbackEvents {j k n : Nat} (h : j < n) :
    DriverEvent.dlclose j ∈ rollbackEvents k n := by
  unfold rollbackEvents
  by_cases hle : j ≤ k
  · apply List.mem_append_left
    rw [List.mem_flatten]
    refine ⟨[DriverEvent.fini j, DriverEvent.dlclose j], ?_, by simp⟩
    apply List.mem_map_of_mem
    rw [List.mem_reverse, List.mem_range]
    omega
  · apply List.mem_append_right
    rw [List.mem_map]
    refine ⟨j - (k + 1), List.mem_range.mpr (by omega), ?_⟩
    show DriverEvent.dlclose (k + 1 + (j - (k + 1))) = DriverEvent.dlclose j
    congr 1
    omega

theorem init_plugin_go_first_error : ∀ (l : List (Option String)) (base n k : Nat)
    (e : String), l.getD k none = some e → (∀ j, j < k → l.getD j none = none) →
    k < l.length →
    init_plugin_go base n l =
      ((List.range (k + 1)).map (fun j => DriverEvent.init (base + j)) ++
        rollbackEvents (base + k) n, some 2)
  | [], base, n, k, e, hk, hb, hlen => by simp at hlen
  | r :: rest, base, n, 0, e, hk, hb, hlen => by
    simp only [List.getD_cons_zero] at hk
    subst hk
    simp [init_plugin_go, List.range_succ]
  | r :: rest, base, n, k + 1, e, hk, hb, hlen => by
    have hr : r = none := by simpa using hb 0 (Nat.succ_pos k)
    subst hr
    have ih := init_plugin_go_first_error rest (base + 1) n k e (by simpa using hk)
      (fun j hj => by simpa using hb (j + 1) (Nat.succ_lt_succ hj))
      (by simpa using hlen)
    rw [show init_plugin_go base n (none :: rest) =
        (DriverEvent.init base :: (init_plugin_go (base + 1) n rest).1,
          (init_plugin_go (base + 1) n rest).2) from rfl, ih,
      map_range_succ_shift DriverEvent.init (k + 1) base]
    have harith : base + 1 + k = base + (k + 1) := by omega
    rw [harith]
    simp

/-- C2: when stage `k` is the first whose `init(queue_size)` returns an
error, the driver rolls back by calling `fini` on every stage `0..k`,
closes every opened module handle (all `n` of them), and exits with
code 2. -/
theorem init_plugin_rollback (initRes : List (Option String)) (k : Nat) (e : String)
    (hk : initRes.getD k none = some e)
    (hb : ∀ j, j < k → initRes.getD j none = none)
    (hlen : k < initRes.length) :
    (init_plugin initRes).exitCode = some 2 ∧
      (∀ j, j ≤ k → DriverEvent.fini j ∈ (init_plugin initRes).events) ∧
      (∀ j, j < initRes.length → DriverEvent.dlclose j ∈ (init_plugin initRes).events) := by
  have hgo := init_plugin_go_first_error initRes 0 initRes.length k e hk hb hlen
  simp only [Nat.zero_add] at hgo
  have hres : init_plugin initRes =
      ⟨(List.range (k + 1)).map (fun j => DriverEvent.init j) ++
        rollbackEvents k initRes.length, some 2⟩ := by
    simp only [init_plugin, hgo]
  rw [hres]
  refine ⟨rfl, ?_, ?_⟩
  · intro j hj
    exact List.mem_append_right _ (fini_mem_rollbackEvents hj)
  · intro j hj
    exact List.mem_append_right _ (dlclose_mem_rollbackEvents hj)

/-- Witness for C2: a three-stage pipeline whose second stage's init fails;
the driver finalizes stages 0 and 1, closes all three modules, exits 2. -/
theorem init_plugin_rollback_witness :
    (init_plugin [none, some "bad", none]).exitCode = some 2 ∧
      DriverEvent.fini 0 ∈ (init_plugin [none, some "bad", none]).events ∧
      DriverEvent.fini 1 ∈ (init_plugin [none, some "bad", none]).events ∧
      DriverEvent.dlclose 2 ∈ (init_plugin [none, some "bad", none]).events := by
  have h := init_plugin_rollback [none, some "bad", none] 1 "bad" rfl
    (fun j hj => by
      have hj0 : j = 0 := by omega
      subst hj0
      rfl)
    (by decide)
  exact ⟨h.1, h.2.1 0 (by omega), h.2.1 1 (by omega), h.2.2 2 (by decide)⟩

/-- C10: calling `plugin_init` on an already-initialized module returns the
error string "plugin already initialized" and leaves the whole context —
queue, worker thread, transform pointer, attachment — unchanged. -/
theorem common_plugin_init_already (ctx : plugin_context_t) (pf : Option Nat)
    (nm : Option String) (qs : Int) (mf tf : Bool)
    (h : ctx.initialized = true) :
    common_plugin_init ctx pf nm qs mf tf = (ctx, some "plugin already initialized") := by
  unfold common_plugin_init
  simp [h]

/-- Witness for C10 at a concrete initialized context. -/
theorem common_plugin_init_already_witness :
    common_plugin_init ⟨some "logger", none, 1, none, some 7, true, false⟩ (some 7)
      (some "logger") 10 false false =
      (⟨some "logger", none, 1, none, some 7, true, false⟩,
        some "plugin already initialized") :=
  common_plugin_init_already ⟨some "logger", none, 1, none, some 7, true, false⟩
    (some 7) (some "logger") 10 false false rfl

theorem workerStepEvents_no_signal (f : String → Option String) (attached : Bool)
    (s : String) :
    WorkerEvent.signaled ∉ workerStepEvents f attached s ∧
      WorkerEvent.get_failed ∉ workerStepEvents f attached s := by
  unfold workerStepEvents
  cases f s with
  | none => simp
  | some out => cases attached <;> simp

/-- C3 (amended): a worker signals its Channel's finished gate at most once,
and exactly once on every completed run — one whose input sequence reaches
the terminator or a failed get; the signal is the last action of the run and
happens only after the worker observed the terminator or a get failure.
(The original claim's "only after it has observed the terminator" fails on
the failed-get exit path, see the counterexample.) -/
theorem plugin_consumer_thread_signals (f : String → Option String)
    (attached : Bool) : ∀ (inputs : List (Option String)),
    (plugin_consumer_thread f attached inputs).count WorkerEvent.signaled ≤ 1 ∧
      (WorkerEvent.signaled ∈ plugin_consumer_thread f attached inputs →
        (plugin_consumer_thread f attached inputs).getLast? =
            some WorkerEvent.signaled ∧
          (WorkerEvent.got "<END>" ∈ plugin_consumer_thread f attached inputs ∨
            WorkerEvent.get_failed ∈ plugin_consumer_thread f attached inputs)) ∧
      ((none ∈ inputs ∨ some "<END>" ∈ inputs) →
        (plugin_consumer_thread f attached inputs).count WorkerEvent.signaled = 1)
  | [] => by
    refine ⟨by simp [plugin_consumer_thread], by simp [plugin_consumer_thread], ?_⟩
    intro h
    rcases h with h | h <;> simp at h
  | none :: rest => by
    have hl : plugin_consumer_thread f attached (none :: rest) =
        [WorkerEvent.get_failed, WorkerEvent.signaled] := rfl
    refine ⟨?_, ?_, ?_⟩
    · rw [hl]; decide
    · rw [hl]; decide
    · intro hin
      rw [hl]; decide
  | some s :: rest => by
    by_cases hs : s = "<END>"
    · subst hs
      have hl : plugin_consumer_thread f attached (some "<END>" :: rest) =
          WorkerEvent.got "<END>" ::
            ((if attached then [WorkerEvent.forwarded "<END>"] else []) ++
              [WorkerEvent.signaled]) := by
        simp [plugin_consumer_thread]
      cases attached with
      | false =>
        simp only [if_neg Bool.false_ne_true] at hl
        refine ⟨?_, ?_, ?_⟩
        · rw [hl]; decide
        · rw [hl]; decide
        · intro hin; rw [hl]; decide
      | true =>
        simp only [if_pos rfl] at hl
        refine ⟨?_, ?_, ?_⟩
        · rw [hl]; decide
        · rw [hl]; decide
        · intro hin; rw [hl]; decide
    · have hl : plugin_consumer_thread f attached (some s :: rest) =
          WorkerEvent.got s ::
            (workerStepEvents f attached s ++
              plugin_consumer_thread f attached rest) := by
        simp [plugin_consumer_thread, hs]
      obtain ⟨ih1, ih2, ih3⟩ := plugin_consumer_thread_signals f attached rest
      obtain ⟨hns, hgf⟩ := workerStepEvents_no_signal f attached s
      refine ⟨?_, ?_, ?_⟩
      · rw [hl]
        simpa [List.count_cons, List.count_append,
          List.count_eq_zero.mpr hns] using ih1
      · rw [hl]
        intro hmem
        have hrec : WorkerEvent.signaled ∈ plugin_consumer_thread f attached rest := by
          rcases List.mem_cons.mp hmem with h | h
          · exact absurd h (by simp)
          · rcases List.mem_append.mp h with h | h
            · exact absurd h hns
            · exact h
        obtain ⟨hlast, hor⟩ := ih2 hrec
        constructor
        · have hne : plugin_consumer_thread f attached rest ≠ [] := by
            intro hnil
            rw [hnil] at hrec
            simp at hrec
          rw [show WorkerEvent.got s ::
              (workerStepEvents f attached s ++ plugin_consumer_thread f attached rest) =
              (WorkerEvent.got s :: workerStepEvents f attached s) ++
                plugin_consumer_thread f attached rest from by simp,
            List.getLast?_append_of_ne_nil _ hne]
          exact hlast
        · rcases hor with h | h
          · exact Or.inl (List.mem_cons_of_mem _ (List.mem_append_right _ h))
          · exact Or.inr (List.mem_cons_of_mem _ (List.mem_append_right _ h))
      · intro hin
        have hrest : none ∈ rest ∨ some "<END>" ∈ rest := by
          rcases hin with h | h
          · rcases List.mem_cons.mp h with h | h
            · exact absurd h (by simp)
            · exact Or.inl h
          · rcases List.mem_cons.mp h with h | h
            · injection h with h
              exact absurd h.symm hs
            · exact Or.inr h
        rw [hl]
        simp [List.count_cons, List.count_append,
          List.count_eq_zero.mpr hns, ih3 hrest]

/-- Witness for C3: the worker over the completed run "hi", terminator —
with a forwarding stage attached — signals exactly once. -/
theorem plugin_consumer_thread_signals_witness :
    (plugin_consumer_thread (fun s => some s) true
      [some "hi", some "<END>"]).count WorkerEvent.signaled = 1 :=
  (plugin_consumer_thread_signals (fun s => some s) true
    [some "hi", some "<END>"]).2.2 (Or.inr (by decide))

/-- Counterexample to C3 as stated: a run whose single get fails makes the
worker signal the finished gate without ever observing the terminator. -/
theorem plugin_consumer_thread_counterexample :
    WorkerEvent.signaled ∈ plugin_consumer_thread (fun s => some s) false [none] ∧
      WorkerEvent.got "<END>" ∉
        plugin_consumer_thread (fun s => some s) false [none] := by
  exact ⟨by decide, by decide⟩

theorem toInt32_eq {v : Int} (h1 : 0 ≤ v) (h2 : v ≤ 2147483647) : toInt32 v = v := by
  unfold toInt32
  rw [Int.emod_eq_of_lt (by omega) (by omega)]
  omega

/-- C6 (amended): the queue-size argument is accepted exactly when the
`strtol` parse consumes the whole argument and yields a (clamped) long
value ≥ 1 — otherwise usage is printed and the process exits with code 1;
when accepted and the value fits a 32-bit int, every stage's Channel is
initialized with capacity equal to that value.  (For values above
`INT_MAX` the claim fails: the stored C int is the 32-bit truncation, see
the counterexample.) -/
theorem parse_queue_size_spec (argv1 : String) (val : Int) (rest : List Char)
    (hparse : strtol10 argv1.data = (val, rest)) :
    (parse_command_line_queue argv1 = Except.error 1 ↔ (rest ≠ [] ∨ val < 1)) ∧
      (rest = [] → 1 ≤ val → val ≤ 2147483647 →
        parse_command_line_queue argv1 = Except.ok val ∧
          ∀ q, consumer_producer_init val = Except.ok q → q.capacity = val.toNat) := by
  constructor
  · unfold parse_command_line_queue
    rw [hparse]
    by_cases h : rest ≠ [] ∨ val < 1
    · rw [if_pos h]
      exact ⟨fun _ => h, fun _ => rfl⟩
    · rw [if_neg h]
      constructor
      · intro hcontra
        exact absurd hcontra (by simp)
      · intro hcontra
        exact absurd hcontra h
  · intro hrest hge hle
    constructor
    · unfold parse_command_line_queue
      rw [hparse]
      have hcond : ¬(rest ≠ [] ∨ val < 1) := by
        push_neg
        exact ⟨hrest, by omega⟩
      rw [if_neg hcond]
      rw [toInt32_eq (by omega) hle]
    · intro q hq
      unfold consumer_producer_init at hq
      rw [if_neg (by omega)] at hq
      simp only [Except.ok.injEq] at hq
      rw [← hq]

/-- Witness for C6: the argument "10" parses to 10 and a Channel
initialized with it has capacity 10. -/
theorem parse_queue_size_spec_witness :
    parse_command_line_queue "10" = Except.ok 10 ∧
      consumer_producer_init 10 =
        Except.ok ⟨10, List.replicate 10 none, 0, 0, 0⟩ := by
  constructor
  · exact ((parse_queue_size_spec "10" 10 [] (by decide)).2 rfl (by decide)
      (by decide)).1
  · rfl

/-- Counterexample to C6 as stated: the decimal integer 4294967297 is ≥ 1
and fully parsed, so the driver accepts it, but the C int it stores is the
32-bit truncation 1, and the Channels are initialized with capacity 1, not
4294967297. -/
theorem parse_queue_size_counterexample :
    parse_command_line_queue "4294967297" = Except.ok 1 ∧
      consumer_producer_init 1 = Except.ok ⟨1, [none], 0, 0, 0⟩ ∧
      (1 : Int) ≠ 4294967297 := by
  refine ⟨rfl, rfl, by decide⟩

theorem getLast?_mem_of {l : List Char} {a : Char} (h : l.getLast? = some a) :
    a ∈ l := by
  obtain ⟨hne, hx⟩ := List.mem_getLast?_eq_getLast (Option.mem_def.mpr h)
  rw [hx]
  exact List.getLast_mem hne

theorem fgetsN_pos (c : Char) (cs : List Char) (b : Nat) :
    0 < fgetsN (c :: cs) (b + 1) := by
  unfold fgetsN
  by_cases h : c = '\n' <;> simp [h]

theorem fgetsN_no_newline : ∀ (s r : List Char) (b : Nat), '\n' ∉ s →
    fgetsN (s ++ '\n' :: r) b = min b (s.length + 1)
  | s, r, 0, h => by
    cases s <;> simp [fgetsN]
  | [], r, b + 1, h => by
    simp [fgetsN]
  | c :: s, r, b + 1, h => by
    have hc : c ≠ '\n' := fun hcontra => h (hcontra ▸ List.mem_cons_self c s)
    have ih := fgetsN_no_newline s r b (fun hx => h (List.mem_cons_of_mem c hx))
    show (if c = '\n' then 1 else 1 + fgetsN (s ++ '\n' :: r) b) =
      min (b + 1) ((c :: s).length + 1)
    rw [if_neg hc, ih]
    simp only [List.length_cons]
    omega

theorem feedStep_snd_lt (c : Char) (cs : List Char) :
    (feedStep (c :: cs)).2.length < (c :: cs).length := by
  have hpos : 0 < fgetsN (c :: cs) 1024 := fgetsN_pos c cs 1023
  show (if _ ∧ _ then _ else _ : List Char).length < (c :: cs).length
  have hdrop : ((c :: cs).drop (fgetsN (c :: cs) 1024)).length < (c :: cs).length := by
    rw [List.length_drop]
    simp only [List.length_cons]
    omega
  split
  · split
    · rw [List.length_tail]
      omega
    · exact hdrop
  · exact hdrop

theorem feed_input_go_nil : ∀ f, feed_input_go f [] = [] := fun f => by
  cases f <;> rfl

theorem feed_input_go_fuel : ∀ (f1 f2 : Nat) (input : List Char),
    input.length ≤ f1 → input.length ≤ f2 →
    feed_input_go f1 input = feed_input_go f2 input
  | _, _, [], _, _ => by rw [feed_input_go_nil, feed_input_go_nil]
  | 0, _, c :: cs, h1, _ => by simp at h1
  | _ + 1, 0, c :: cs, _, h2 => by simp at h2
  | g1 + 1, g2 + 1, c :: cs, h1, h2 => by
    have hlt := feedStep_snd_lt c cs
    have hrec := feed_input_go_fuel g1 g2 (feedStep (c :: cs)).2
      (by simp only [List.length_cons] at hlt h1 ⊢; omega)
      (by simp only [List.length_cons] at hlt h2 ⊢; omega)
    show (if (feedStep (c :: cs)).1 = "<END>" then ["<END>"]
        else (feedStep (c :: cs)).1 :: feed_input_go g1 (feedStep (c :: cs)).2) =
      (if (feedStep (c :: cs)).1 = "<END>" then ["<END>"]
        else (feedStep (c :: cs)).1 :: feed_input_go g2 (feedStep (c :: cs)).2)
    rw [hrec]
  termination_by _ _ input => input.length

theorem feedStep_short (s r : List Char) (hnl : '\n' ∉ s)
    (hlen : s.length < 1024) :
    feedStep (s ++ '\n' :: r) = (String.mk s, r) := by
  have hn : fgetsN (s ++ '\n' :: r) 1024 = s.length + 1 := by
    rw [fgetsN_no_newline s r 1024 hnl]
    omega
  have hchunk : (s ++ '\n' :: r).take (s.length + 1) = s ++ ['\n'] := by
    have h : (s ++ '\n' :: r).take (s.length + 1) = s ++ ('\n' :: r).take 1 :=
      List.take_append 1
    rw [h]
    rfl
  have hrest : (s ++ '\n' :: r).drop (s.length + 1) = r := by
    have h : (s ++ '\n' :: r).drop (s.length + 1) = ('\n' :: r).drop 1 :=
      List.drop_append 1
    rw [h]
    rfl
  simp only [feedStep, hn, hchunk, hrest]
  rw [List.getLast?_concat]
  simp [List.dropLast_concat]

theorem feedStep_exact (s r : List Char) (hnl : '\n' ∉ s)
    (hlen : s.length = 1024) :
    feedStep (s ++ '\n' :: r) = (String.mk s, r) := by
  have hn : fgetsN (s ++ '\n' :: r) 1024 = 1024 := by
    rw [fgetsN_no_newline s r 1024 hnl]
    omega
  have hchunk : (s ++ '\n' :: r).take 1024 = s := by
    rw [← hlen, List.take_append_of_le_length le_rfl, List.take_length]
  have hrest : (s ++ '\n' :: r).drop 1024 = '\n' :: r := by
    rw [← hlen]
    simp
  have hlast : s.getLast? ≠ some '\n' := fun hcontra => hnl (getLast?_mem_of hcontra)
  have hcl : s.length = 1024 := hlen
  simp only [feedStep, hn, hchunk, hrest, if_neg hlast]
  rw [if_pos ⟨hlast, hcl⟩]
  simp

theorem feedStep_long (s r : List Char) (hnl : '\n' ∉ s) (hlen : 1024 < s.length) :
    feedStep (s ++ '\n' :: r) =
      (String.mk (s.take 1024), s.drop 1024 ++ '\n' :: r) := by
  have hn : fgetsN (s ++ '\n' :: r) 1024 = 1024 := by
    rw [fgetsN_no_newline s r 1024 hnl]
    omega
  have hchunk : (s ++ '\n' :: r).take 1024 = s.take 1024 :=
    List.take_append_of_le_length (by omega)
  have hrest : (s ++ '\n' :: r).drop 1024 = s.drop 1024 ++ '\n' :: r :=
    List.drop_append_of_le_length (by omega)
  have hlast : (s.take 1024).getLast? ≠ some '\n' := fun hcontra =>
    hnl (List.take_subset _ _ (getLast?_mem_of hcontra))
  have hcl : (s.take 1024).length = 1024 := by
    rw [List.length_take]
    omega
  have hhead : (s.drop 1024 ++ '\n' :: r).head? ≠ some '\n' := by
    obtain ⟨d, ds, hds⟩ : ∃ d ds, s.drop 1024 = d :: ds := by
      cases hd : s.drop 1024 with
      | nil =>
        exfalso
        have := congrArg List.length hd
        simp only [List.length_drop, List.length_nil] at this
        omega
      | cons d ds => exact ⟨d, ds, rfl⟩
    rw [hds]
    intro hcontra
    simp only [List.cons_append, List.head?_cons, Option.some.injEq] at hcontra
    have hdmem : d ∈ s := List.drop_subset _ _ (hds ▸ List.mem_cons_self d ds)
    exact hnl (hcontra ▸ hdmem)
  simp only [feedStep, hn, hchunk, hrest, if_neg hlast]
  rw [if_pos ⟨hlast, hcl⟩, if_neg hhead]

theorem chunks1024_short {l : List Char} (h : l.length ≤ 1024) :
    chunks1024 l = [l] := by
  unfold chunks1024
  rcases hn : l.length with _ | m
  · rfl
  · simp [chunksGo, h]

theorem chunksGo_fuel : ∀ (f1 f2 : Nat) (l : List Char),
    l.length ≤ f1 → l.length ≤ f2 → chunksGo f1 l = chunksGo f2 l
  | 0, f2, l, h1, h2 => by
    have hl : l = [] := List.eq_nil_of_length_eq_zero (by omega)
    subst hl
    cases f2 with
    | zero => rfl
    | succ g => simp [chunksGo]
  | f1 + 1, 0, l, h1, h2 => by
    have hl : l = [] := List.eq_nil_of_length_eq_zero (by omega)
    subst hl
    simp [chunksGo]
  | g1 + 1, g2 + 1, l, h1, h2 => by
    by_cases hl : l.length ≤ 1024
    · simp [chunksGo, hl]
    · simp only [chunksGo, if_neg hl]
      congr 1
      exact chunksGo_fuel g1 g2 (l.drop 1024)
        (by simp only [List.length_drop]; omega)
        (by simp only [List.length_drop]; omega)

theorem chunks1024_long {l : List Char} (h : 1024 < l.length) :
    chunks1024 l = l.take 1024 :: chunks1024 (l.drop 1024) := by
  unfold chunks1024
  obtain ⟨m, hm⟩ : ∃ m, l.length = m + 1 := ⟨l.length - 1, by omega⟩
  rw [hm]
  simp only [chunksGo, if_neg (by omega : ¬l.length ≤ 1024)]
  congr 1
  exact chunksGo_fuel m (l.drop 1024).length (l.drop 1024)
    (by simp only [List.length_drop]; omega) le_rfl

theorem chunks1024_props (l : List Char) :
    (∀ c ∈ chunks1024 l, c.length ≤ 1024) ∧ (chunks1024 l).flatten = l ∧
      (l ≠ [] → ∀ c ∈ chunks1024 l, 0 < c.length) := by
  by_cases h : l.length ≤ 1024
  · rw [chunks1024_short h]
    refine ⟨?_, by simp, ?_⟩
    · intro c hc
      rw [List.mem_singleton] at hc
      subst hc
      exact h
    · intro hne c hc
      rw [List.mem_singleton] at hc
      subst hc
      exact List.length_pos.mpr hne
  · push_neg at h
    rw [chunks1024_long h]
    obtain ⟨ih1, ih2, ih3⟩ := chunks1024_props (l.drop 1024)
    have hdne : l.drop 1024 ≠ [] := by
      intro hnil
      have := congrArg List.length hnil
      simp only [List.length_drop, List.length_nil] at this
      omega
    refine ⟨?_, ?_, ?_⟩
    · intro c hc
      rcases List.mem_cons.mp hc with rfl | hc
      · simp [List.length_take]
      · exact ih1 c hc
    · rw [List.flatten_cons, ih2, List.take_append_drop]
    · intro _ c hc
      rcases List.mem_cons.mp hc with rfl | hc
      · rw [List.length_take]
        omega
      · exact ih3 hdne c hc
  termination_by l.length
  decreasing_by
    simp only [List.length_drop]
    omega

theorem chunks1024_len2 {l : List Char} (h : 1024 < l.length) :
    2 ≤ (chunks1024 l).length := by
  rw [chunks1024_long h]
  have : chunks1024 (l.drop 1024) ≠ [] := by
    by_cases hd : (l.drop 1024).length ≤ 1024
    · rw [chunks1024_short hd]
      simp
    · push_neg at hd
      rw [chunks1024_long hd]
      simp
  simp only [List.length_cons]
  have := List.length_pos.mpr this
  omega

/-- A long stdin line is submitted as its 1024-byte chunks, in order,
followed by whatever the remaining input produces; the newline after a
buffer-filling chunk is swallowed without an empty submission. -/
theorem feed_chunks : ∀ (s r : List Char), '\n' ∉ s → s ≠ [] →
    (∀ c ∈ chunks1024 s, String.mk c ≠ "<END>") →
    feed_input (s ++ '\n' :: r) = (chunks1024 s).map String.mk ++ feed_input r
  | s, r, hnl, hne, hnoend => by
    obtain ⟨c, cs, hcc⟩ : ∃ c cs, s = c :: cs := by
      cases s with
      | nil => exact absurd rfl hne
      | cons c cs => exact ⟨c, cs, rfl⟩
    have hlen : (s ++ '\n' :: r).length = (s.length + r.length) + 1 := by
      simp only [List.length_append, List.length_cons]
      omega
    have hshape : s ++ '\n' :: r = c :: (cs ++ '\n' :: r) := by
      rw [hcc]
      rfl
    by_cases hcase : s.length ≤ 1024
    · -- the whole line fits one fgets read (with or without its newline)
      have hstep : feedStep (s ++ '\n' :: r) = (String.mk s, r) := by
        rcases Nat.lt_or_ge s.length 1024 with hlt | hge
        · exact feedStep_short s r hnl hlt
        · exact feedStep_exact s r hnl (by omega)
      have hch : chunks1024 s = [s] := chunks1024_short hcase
      have hnend : String.mk s ≠ "<END>" := hnoend s (by rw [hch]; simp)
      show feed_input_go (s ++ '\n' :: r).length (s ++ '\n' :: r) = _
      rw [hlen, hshape]
      show (if (feedStep (c :: (cs ++ '\n' :: r))).1 = "<END>" then ["<END>"]
        else (feedStep (c :: (cs ++ '\n' :: r))).1 ::
          feed_input_go (s.length + r.length) (feedStep (c :: (cs ++ '\n' :: r))).2) = _
      rw [← hshape, hstep]
      simp only [if_neg hnend]
      rw [feed_input_go_fuel (s.length + r.length) r.length r (by omega) le_rfl,
        hch]
      rfl
    · push_neg at hcase
      have hstep := feedStep_long s r hnl hcase
      have hch := chunks1024_long hcase
      have hnend : String.mk (s.take 1024) ≠ "<END>" :=
        hnoend (s.take 1024) (by rw [hch]; simp)
      have hdnl : '\n' ∉ s.drop 1024 := fun hx => hnl (List.drop_subset _ _ hx)
      have hdne : s.drop 1024 ≠ [] := by
        intro hnil
        have := congrArg List.length hnil
        simp only [List.length_drop, List.length_nil] at this
        omega
      have hdnoend : ∀ cc ∈ chunks1024 (s.drop 1024), String.mk cc ≠ "<END>" := by
        intro cc hcc
        exact hnoend cc (by rw [hch]; exact List.mem_cons_of_mem _ hcc)
      have ih := feed_chunks (s.drop 1024) r hdnl hdne hdnoend
      show feed_input_go (s ++ '\n' :: r).length (s ++ '\n' :: r) = _
      rw [hlen, hshape]
      show (if (feedStep (c :: (cs ++ '\n' :: r))).1 = "<END>" then ["<END>"]
        else (feedStep (c :: (cs ++ '\n' :: r))).1 ::
          feed_input_go (s.length + r.length) (feedStep (c :: (cs ++ '\n' :: r))).2) = _
      rw [← hshape, hstep]
      simp only [if_neg hnend]
      have hfuel : feed_input_go (s.length + r.length) (s.drop 1024 ++ '\n' :: r) =
          feed_input (s.drop 1024 ++ '\n' :: r) := by
        apply feed_input_go_fuel
        · simp only [List.length_append, List.length_drop, List.length_cons]
          omega
        · rfl
      rw [hfuel, ih, hch]
      simp
  termination_by s _ _ _ _ => s.length
  decreasing_by
    simp only [List.length_drop]
    omega

/-- C8: a stdin line longer than 1024 bytes is submitted to
`stage[0].place_work` as its consecutive 1024-byte chunks — at least two of
them, each non-empty and at most 1024 bytes, concatenating back to the
line — and the newline right after a chunk that exactly filled the buffer
is consumed without an extra empty work item: the submissions continue
directly with the rest of the input. -/
theorem feed_input_long_line (s r : List Char) (hnl : '\n' ∉ s)
    (hlong : 1024 < s.length)
    (hnoend : ∀ c ∈ chunks1024 s, String.mk c ≠ "<END>") :
    feed_input (s ++ '\n' :: r) = (chunks1024 s).map String.mk ++ feed_input r ∧
      2 ≤ (chunks1024 s).length ∧
      (∀ c ∈ chunks1024 s, 0 < c.length ∧ c.length ≤ 1024) ∧
      (chunks1024 s).flatten = s := by
  have hne : s ≠ [] := by
    intro h
    subst h
    simp at hlong
  obtain ⟨h1, h2, h3⟩ := chunks1024_props s
  refine ⟨feed_chunks s r hnl hne hnoend, chunks1024_len2 hlong, ?_, h2⟩
  intro c hc
  exact ⟨h3 hne c hc, h1 c hc⟩

/-- Witness for C8: a 1025-byte line of "a"s followed by a newline is
submitted as a 1024-byte chunk and a 1-byte chunk. -/
theorem feed_input_long_line_witness :
    feed_input (List.replicate 1025 'a' ++ '\n' :: []) =
      (chunks1024 (List.replicate 1025 'a')).map String.mk ++ feed_input [] ∧
      2 ≤ (chunks1024 (List.replicate 1025 'a')).length := by
  have hch : chunks1024 (List.replicate 1025 'a') =
      [List.replicate 1024 'a', List.replicate 1 'a'] := by
    rw [chunks1024_long (by rw [List.length_replicate]; omega),
      List.take_replicate, List.drop_replicate,
      chunks1024_short (by rw [List.length_replicate]; omega)]
    norm_num
  have h := feed_input_long_line (List.replicate 1025 'a') []
    (by
      intro hx
      rw [List.mem_replicate] at hx
      exact absurd hx.2 (by decide))
    (by rw [List.length_replicate]; omega)
    (by
      rw [hch]
      intro c hc
      rcases List.mem_cons.mp hc with rfl | hc
      · exact (by decide : String.mk (List.replicate 1024 'a') ≠ "<END>")
      · rw [List.mem_singleton] at hc
        subst hc
        exact (by decide : String.mk (List.replicate 1 'a') ≠ "<END>"))
  exact ⟨h.1, h.2.1⟩
